import Mathlib

/-!
Verification development for the `xcoder-queue` crate (`src/src/lib.rs`).

The crate has two parts:

* `DecoderInputQueue` / `DecoderInputQueueProducer`: a blocking SPSC queue
  built on the external `rtrb` ring buffer.  `push` retries a failed
  non-blocking insert (reusing the item handed back by `PushError::Full`)
  after a 1 ms sleep; the iterator `next` retries a failed non-blocking
  removal after the same sleep and can only exit its loop by returning
  `Some(frame)`.

* `read_frames`: a batch Annex-B demuxer.  The external crate function
  `h264::iterate_annex_b` splits the input buffer into NAL units; the model
  below therefore takes the resulting list of NAL units as its input.  The
  external `h264::AccessUnitCounter` is modelled as an abstract state
  machine (state type, current count, fallible transition), since its code
  is not part of this repository; `read_frames` only observes whether the
  count changed and whether `count_nalu` failed.

Bytes are `Nat` (values of Rust `u8`); timestamps are `Int` (Rust signed
integer timestamps via `as _`).  A Rust panic (the `.unwrap()` in
`read_frames`) is modelled as the whole call evaluating to `none`: the
function never returns a value in that case.
-/

namespace XcoderQueue

/-- Byte of the input stream, a Rust `u8` value. -/
abbrev Byte := Nat

/-- NAL unit as produced by the external splitter `h264::iterate_annex_b`:
the raw bytes of one unit, start code stripped. -/
abbrev Nalu := List Byte

/-- Model of `xcoder_quadra::decoder::XcoderDecoderInputFrame`: an owned
byte buffer plus presentation and decode timestamps. -/
structure XcoderDecoderInputFrame where
  data : List Byte
  pts : Int
  dts : Int
deriving DecidableEq, Repr

/-- Stand-in for `std::io::Error`, the error half of the element type of
`read_frames`.  `read_frames` never constructs such a value; only the shape
of the element type matters here. -/
abbrev IoError := Unit

/-- Element type of the vector `read_frames` returns:
`Result<XcoderDecoderInputFrame, std::io::Error>`. -/
abbrev FrameResult := Except IoError XcoderDecoderInputFrame

/-- Abstract interface of the external `h264::AccessUnitCounter`: a state
type `σ` with an initial state, the current access-unit count, and the
fallible transition `count_nalu` (mutation of `self` becomes explicit state
passing; the `Err` case of the Rust `Result` becomes `none`). -/
structure AccessUnitCounter (σ : Type) where
  init : σ
  count : σ → Nat
  count_nalu : σ → Nalu → Option σ

/-- Loop body of `read_frames` (src/src/lib.rs lines 60-82): state after the
NAL units already processed, the accumulated `ret` and `buffer`, and the NAL
units still to process.  A failing `count_nalu` is `.unwrap()`ed in the
source, i.e. the whole call panics: modelled as `none`.  On a new access
unit with a non-empty accumulation buffer the buffer is emitted as a frame
with `pts = dts = ret.len()`; the current NAL unit is then appended behind a
fresh `00 00 00 01` start code. -/
def readFramesGo {σ : Type} (D : AccessUnitCounter σ) :
    List Nalu → σ → List FrameResult → List Byte → Option (List FrameResult)
  | [], _, ret, buffer =>
      if buffer = [] then some ret
      else some (ret ++ [Except.ok ⟨buffer, (ret.length : Int), (ret.length : Int)⟩])
  | nalu :: rest, s, ret, buffer =>
      match D.count_nalu s nalu with
      | none => none
      | some s' =>
          if D.count s' ≠ D.count s ∧ ¬ buffer = [] then
            readFramesGo D rest s'
              (ret ++ [Except.ok ⟨buffer, (ret.length : Int), (ret.length : Int)⟩])
              ([0, 0, 0, 1] ++ nalu)
          else
            readFramesGo D rest s' ret (buffer ++ [0, 0, 0, 1] ++ nalu)

/-- Model of `read_frames` (src/src/lib.rs lines 55-84), starting from a
fresh `h264::AccessUnitCounter::new()`, empty `ret` and empty `buffer`.  The
input buffer enters through the external `h264::iterate_annex_b`, so the
model takes the list of NAL units that splitter yields. -/
def read_frames {σ : Type} (D : AccessUnitCounter σ) (nalus : List Nalu) :
    Option (List FrameResult) :=
  readFramesGo D nalus D.init [] []

/-- Per-NALU `is_new_frame` flags of a run of the counter: for each NAL
unit, whether feeding it changed the access-unit count; `none` as soon as
`count_nalu` fails. -/
def triggerFlags {σ : Type} (D : AccessUnitCounter σ) : σ → List Nalu → Option (List Bool)
  | _, [] => some []
  | s, nalu :: rest =>
      match D.count_nalu s nalu with
      | none => none
      | some s' =>
          (triggerFlags D s' rest).map fun fs => decide (D.count s' ≠ D.count s) :: fs

/-- Folding `count_nalu` over a list of NAL units: the counter state after
processing them, `none` as soon as one fails. -/
def runCounter {σ : Type} (D : AccessUnitCounter σ) : σ → List Nalu → Option σ
  | s, [] => some s
  | s, nalu :: rest =>
      match D.count_nalu s nalu with
      | none => none
      | some s' => runCounter D s' rest

/-- Data bytes carried by one element of the result vector. -/
def frameData : FrameResult → List Byte
  | Except.ok f => f.data
  | Except.error _ => []

/-- A NAL unit as `read_frames` re-emits it: behind the canonical 4-byte
start code `00 00 00 01`. -/
def withStartCode (n : Nalu) : List Byte := [0, 0, 0, 1] ++ n

namespace rtrb

/-- Model of the external `rtrb::RingBuffer`: a bounded SPSC queue, as its
capacity and current contents, oldest item first. -/
structure RingBuffer (α : Type) where
  capacity : Nat
  items : List α
deriving DecidableEq, Repr

/-- Model of `rtrb::Producer::push`: non-blocking insert.  On a full buffer
it fails, handing the very same item back (`PushError::Full(item)`) and
leaving the buffer unchanged. -/
def RingBuffer.push {α : Type} (rb : RingBuffer α) (x : α) : Except α (RingBuffer α) :=
  if rb.items.length < rb.capacity then Except.ok ⟨rb.capacity, rb.items ++ [x]⟩
  else Except.error x

/-- Model of `rtrb::Consumer::pop`: non-blocking removal; fails on an empty
buffer (`PopError::Empty`). -/
def RingBuffer.pop {α : Type} (rb : RingBuffer α) : Except Unit (α × RingBuffer α) :=
  match rb.items with
  | [] => Except.error ()
  | x :: rest => Except.ok (x, ⟨rb.capacity, rest⟩)

end rtrb

/-- Model of `DecoderInputQueue::new(capacity)` (src/src/lib.rs lines
16-22): the single ring buffer, initially empty, that the returned consumer
and producer handles share. -/
def DecoderInputQueue.new (α : Type) (capacity : Nat) : rtrb.RingBuffer α :=
  ⟨capacity, []⟩

/-- Model of `DecoderInputQueueProducer::push` (src/src/lib.rs lines 26-37):
the retry loop around the non-blocking insert.  On `Full(returned_frame)`
the item handed back by the failed insert is retried after a 1 ms sleep.
`fuel` bounds how many loop iterations are observed; `none` means the loop
is still running after `fuel` attempts.  The sleep does not change the
buffer, so a concurrent consumer is modelled separately by `QueueStep`. -/
def DecoderInputQueueProducer.push {α : Type} (rb : rtrb.RingBuffer α) (frame : α) :
    Nat → Option (rtrb.RingBuffer α)
  | 0 => none
  | fuel + 1 =>
      match rtrb.RingBuffer.push rb frame with
      | Except.ok rb' => some rb'
      | Except.error returned => DecoderInputQueueProducer.push rb returned fuel

/-- Model of `<DecoderInputQueue as Iterator>::next` (src/src/lib.rs lines
43-52): the retry loop around the non-blocking removal.  The loop can exit
only by returning `Some(frame)`; the inner `Option Byte`-like component is
the Rust iterator's return value.  The outer `Option` is the fuel bound:
`none` means the loop is still running after `fuel` attempts. -/
def DecoderInputQueue.next {α : Type} (rb : rtrb.RingBuffer α) :
    Nat → Option (Option α × rtrb.RingBuffer α)
  | 0 => none
  | fuel + 1 =>
      match rtrb.RingBuffer.pop rb with
      | Except.ok (x, rb') => some (some x, rb')
      | Except.error _ => DecoderInputQueue.next rb fuel

/-- Joint state of the producer thread pushing a fixed list in program
order and the consumer thread popping: the items not yet successfully
pushed, the shared ring buffer, and the items popped so far. -/
structure QueueState (α : Type) where
  pending : List α
  buf : rtrb.RingBuffer α
  popped : List α
deriving DecidableEq, Repr

/-- One successful operation of either thread.  A failed non-blocking
attempt leaves every component unchanged (the retry loops in `push` and
`next` just sleep and try again), so only successful attempts appear as
steps; arbitrary interleavings of the two threads are covered. -/
inductive QueueStep {α : Type} : QueueState α → QueueState α → Prop
  | push (x : α) (rest : List α) (b rb' : rtrb.RingBuffer α) (popped : List α)
      (h : rtrb.RingBuffer.push b x = Except.ok rb') :
      QueueStep ⟨x :: rest, b, popped⟩ ⟨rest, rb', popped⟩
  | pop (pending : List α) (b rb' : rtrb.RingBuffer α) (x : α) (popped : List α)
      (h : rtrb.RingBuffer.pop b = Except.ok (x, rb')) :
      QueueStep ⟨pending, b, popped⟩ ⟨pending, rb', popped ++ [x]⟩

/-- States reachable from "producer about to push the sequence `xs`, buffer
fresh from `DecoderInputQueue::new(C)`, nothing popped yet". -/
def QueueReach {α : Type} (C : Nat) (xs : List α) (s : QueueState α) : Prop :=
  Relation.ReflTransGen QueueStep ⟨xs, DecoderInputQueue.new α C, []⟩ s

/-- Concrete access-unit counter used for witnesses and counterexamples:
the state is the count itself, the NAL unit `[9]` is unclassifiable
(`count_nalu` fails), the NAL unit `[1]` starts a new access unit, every
other NAL unit leaves the count unchanged. -/
def testCounter : AccessUnitCounter Nat where
  init := 0
  count := fun s => s
  count_nalu := fun s n => if n = [9] then none else if n = [1] then some (s + 1) else some s

/-- Every element of the list is an `Ok` frame whose `pts` and `dts` both
equal its absolute position, counting positions from `k`. -/
def PtsFrom : Nat → List FrameResult → Prop
  | _, [] => True
  | k, r :: rest =>
      (∃ d, r = Except.ok ⟨d, (k : Int), (k : Int)⟩) ∧ PtsFrom (k + 1) rest

theorem ptsFrom_append (l₁ l₂ : List FrameResult) (k : Nat) :
    PtsFrom k (l₁ ++ l₂) ↔ PtsFrom k l₁ ∧ PtsFrom (k + l₁.length) l₂ := by
  induction l₁ generalizing k with
  | nil => simp [PtsFrom]
  | cons r rest ih =>
      have hk : k + 1 + rest.length = k + (rest.length + 1) := by omega
      simp only [List.cons_append, PtsFrom, List.append_eq, ih (k + 1),
        List.length_cons, hk, and_assoc]

theorem ptsFrom_snoc (ret : List FrameResult) (d : List Byte)
    (h : PtsFrom 0 ret) :
    PtsFrom 0
      (ret ++ [Except.ok ⟨d, (ret.length : Int), (ret.length : Int)⟩]) := by
  refine (ptsFrom_append ret _ 0).mpr ⟨h, ?_⟩
  simp only [Nat.zero_add, PtsFrom, and_true]
  exact ⟨d, rfl⟩

theorem ptsFrom_get :
    ∀ (l : List FrameResult) (k i : Nat) (h : i < l.length), PtsFrom k l →
      ∃ d, l.get ⟨i, h⟩ =
        Except.ok ⟨d, ((k + i : Nat) : Int), ((k + i : Nat) : Int)⟩ := by
  intro l
  induction l with
  | nil => intro k i h _; exact absurd h (by simp)
  | cons r rest ih =>
      intro k i h hp
      cases i with
      | zero =>
          obtain ⟨d, hd⟩ := hp.1
          exact ⟨d, by simpa using hd⟩
      | succ i =>
          obtain ⟨d, hd⟩ := ih (k + 1) i (by simpa using h) hp.2
          refine ⟨d, ?_⟩
          have : k + 1 + i = k + (i + 1) := by omega
          simpa [this] using hd

theorem readFramesGo_pts {σ : Type} (D : AccessUnitCounter σ) :
    ∀ (nalus : List Nalu) (s : σ) (ret : List FrameResult) (buffer : List Byte)
      (l : List FrameResult),
      readFramesGo D nalus s ret buffer = some l → PtsFrom 0 ret → PtsFrom 0 l := by
  intro nalus
  induction nalus with
  | nil =>
      intro s ret buffer l hgo hret
      by_cases hb : buffer = []
      · simp [readFramesGo, hb] at hgo
        exact hgo ▸ hret
      · simp [readFramesGo, hb] at hgo
        exact hgo ▸ ptsFrom_snoc ret buffer hret
  | cons nalu rest ih =>
      intro s ret buffer l hgo hret
      cases hcn : D.count_nalu s nalu with
      | none => simp [readFramesGo, hcn] at hgo
      | some s' =>
          simp only [readFramesGo, hcn] at hgo
          by_cases hc : D.count s' ≠ D.count s ∧ ¬ buffer = []
          · rw [if_pos hc] at hgo
            exact ih s' _ _ l hgo (ptsFrom_snoc ret buffer hret)
          · rw [if_neg hc] at hgo
            exact ih s' ret _ l hgo hret

/-- Pts and dts of each emitted frame equal its position in the result, for
the full call starting from empty accumulators. -/
theorem read_frames_pts {σ : Type} (D : AccessUnitCounter σ)
    (nalus : List Nalu) (l : List FrameResult)
    (h : read_frames D nalus = some l) (i : Nat) (hi : i < l.length) :
    ∃ d, l.get ⟨i, hi⟩ = Except.ok ⟨d, (i : Int), (i : Int)⟩ := by
  have hp : PtsFrom 0 l := readFramesGo_pts D nalus D.init [] [] l h trivial
  obtain ⟨d, hd⟩ := ptsFrom_get l 0 i hi hp
  exact ⟨d, by simpa using hd⟩

/-- Decomposition of a successful `triggerFlags` run over a cons cell. -/
theorem triggerFlags_cons {σ : Type} (D : AccessUnitCounter σ) (s : σ) (nalu : Nalu)
    (rest : List Nalu) (fs : List Bool)
    (h : triggerFlags D s (nalu :: rest) = some fs) :
    ∃ s' fs', D.count_nalu s nalu = some s' ∧ triggerFlags D s' rest = some fs' ∧
      fs = decide (D.count s' ≠ D.count s) :: fs' := by
  cases hcn : D.count_nalu s nalu with
  | none => simp [triggerFlags, hcn] at h
  | some s' =>
      cases hrest : triggerFlags D s' rest with
      | none => simp [triggerFlags, hcn, hrest] at h
      | some fs' =>
          simp only [triggerFlags, hcn, hrest] at h
          simp only [Option.map, Option.some_inj] at h
          exact ⟨s', fs', rfl, hrest, h.symm⟩

/-- Bytes emitted by the loop: the concatenation of the result frames' data
equals the data already in `ret`, then the accumulation buffer, then every
remaining NAL unit behind a fresh start code. -/
theorem readFramesGo_data {σ : Type} (D : AccessUnitCounter σ) :
    ∀ (nalus : List Nalu) (s : σ) (ret : List FrameResult) (buffer : List Byte)
      (l : List FrameResult),
      readFramesGo D nalus s ret buffer = some l →
      (l.map frameData).flatten =
        (ret.map frameData).flatten ++ buffer ++ (nalus.map withStartCode).flatten := by
  intro nalus
  induction nalus with
  | nil =>
      intro s ret buffer l hgo
      by_cases hb : buffer = []
      · simp [readFramesGo, hb] at hgo
        simp [← hgo, hb]
      · simp [readFramesGo, hb] at hgo
        simp [← hgo, frameData]
  | cons nalu rest ih =>
      intro s ret buffer l hgo
      cases hcn : D.count_nalu s nalu with
      | none => simp [readFramesGo, hcn] at hgo
      | some s' =>
          simp only [readFramesGo, hcn] at hgo
          by_cases hc : D.count s' ≠ D.count s ∧ ¬ buffer = []
          · rw [if_pos hc] at hgo
            have := ih s' _ _ l hgo
            simp only [List.map_append, List.flatten_append, List.map_cons,
              List.flatten_cons, frameData, withStartCode] at this ⊢
            simp [this, List.append_assoc]
          · rw [if_neg hc] at hgo
            have := ih s' ret _ l hgo
            simp only [List.map_cons, List.flatten_cons, withStartCode] at this ⊢
            simp [this, List.append_assoc]

/-- Frame count of the loop when the accumulation buffer is already
non-empty: one frame per later trigger plus the final flush. -/
theorem readFramesGo_length {σ : Type} (D : AccessUnitCounter σ) :
    ∀ (nalus : List Nalu) (s : σ) (ret : List FrameResult) (buffer : List Byte)
      (fs : List Bool),
      triggerFlags D s nalus = some fs → buffer ≠ [] →
      ∃ l, readFramesGo D nalus s ret buffer = some l ∧
        l.length = ret.length + fs.count true + 1 := by
  intro nalus
  induction nalus with
  | nil =>
      intro s ret buffer fs hf hb
      simp only [triggerFlags, Option.some_inj] at hf
      refine ⟨ret ++ [Except.ok ⟨buffer, (ret.length : Int), (ret.length : Int)⟩],
        by simp [readFramesGo, hb], ?_⟩
      simp [← hf]
  | cons nalu rest ih =>
      intro s ret buffer fs hf hb
      obtain ⟨s', fs', hcn, hrest, hfs⟩ := triggerFlags_cons D s nalu rest fs hf
      by_cases hc : D.count s' = D.count s
      · obtain ⟨l, hgo, hlen⟩ := ih s' ret (buffer ++ [0, 0, 0, 1] ++ nalu) fs' hrest (by simp)
        refine ⟨l, ?_, ?_⟩
        · simp only [readFramesGo, hcn]
          rw [if_neg (by simp [hc])]
          exact hgo
        · rw [hlen, hfs]
          simp [List.count_cons, hc]
      · obtain ⟨l, hgo, hlen⟩ := ih s'
          (ret ++ [Except.ok ⟨buffer, (ret.length : Int), (ret.length : Int)⟩])
          ([0, 0, 0, 1] ++ nalu) fs' hrest (by simp)
        refine ⟨l, ?_, ?_⟩
        · simp only [readFramesGo, hcn]
          rw [if_pos ⟨hc, hb⟩]
          exact hgo
        · rw [hlen, hfs]
          simp only [List.length_append, List.length_cons, List.length_nil,
            List.count_cons]
          simp [hc]
          omega

/-- If from some point on no NAL unit changes the count, the loop just
accumulates everything and flushes one final frame. -/
theorem readFramesGo_noTrigger {σ : Type} (D : AccessUnitCounter σ) :
    ∀ (nalus : List Nalu) (s : σ) (ret : List FrameResult) (buffer : List Byte)
      (fs : List Bool),
      triggerFlags D s nalus = some fs → (∀ b ∈ fs, b = false) → buffer ≠ [] →
      readFramesGo D nalus s ret buffer =
        some (ret ++ [Except.ok ⟨buffer ++ (nalus.map withStartCode).flatten,
          (ret.length : Int), (ret.length : Int)⟩]) := by
  intro nalus
  induction nalus with
  | nil =>
      intro s ret buffer fs _ _ hb
      simp [readFramesGo, hb]
  | cons nalu rest ih =>
      intro s ret buffer fs hf hno hb
      obtain ⟨s', fs', hcn, hrest, hfs⟩ := triggerFlags_cons D s nalu rest fs hf
      have hflag : decide (D.count s' ≠ D.count s) = false := by
        have := hno _ (hfs ▸ List.mem_cons_self _ _)
        exact this
      have hc : D.count s' = D.count s := by
        by_contra hne
        simp [hne] at hflag
      have hno' : ∀ b ∈ fs', b = false := by
        intro b hbmem
        exact hno b (hfs ▸ List.mem_cons_of_mem _ hbmem)
      simp only [readFramesGo, hcn]
      rw [if_neg (by simp [hc])]
      rw [ih s' ret (buffer ++ [0, 0, 0, 1] ++ nalu) fs' hrest hno' (by simp)]
      simp [withStartCode, List.append_assoc]

/-- A failing `count_nalu` anywhere in the input makes the whole call panic:
the loop reaches the offending NAL unit with the folded counter state and
evaluates to `none`, whatever `ret` and `buffer` hold by then. -/
theorem readFramesGo_panic {σ : Type} (D : AccessUnitCounter σ) :
    ∀ (p : List Nalu) (s : σ) (ret : List FrameResult) (buffer : List Byte)
      (s' : σ) (n : Nalu) (rest : List Nalu),
      runCounter D s p = some s' → D.count_nalu s' n = none →
      readFramesGo D (p ++ n :: rest) s ret buffer = none := by
  intro p
  induction p with
  | nil =>
      intro s ret buffer s' n rest hrun hfail
      simp only [runCounter, Option.some_inj] at hrun
      subst hrun
      simp [readFramesGo, hfail]
  | cons q p' ih =>
      intro s ret buffer s' n rest hrun hfail
      cases hcn : D.count_nalu s q with
      | none => simp [runCounter, hcn] at hrun
      | some s₁ =>
          simp only [runCounter, hcn] at hrun
          simp only [List.cons_append, readFramesGo, hcn]
          by_cases hc : D.count s₁ ≠ D.count s ∧ ¬ buffer = []
          · rw [if_pos hc]
            exact ih s₁ _ _ s' n rest hrun hfail
          · rw [if_neg hc]
            exact ih s₁ _ _ s' n rest hrun hfail

/-- One queue step moves an item between the three regions and moves
nothing else: the concatenation popped-buffer-pending is unchanged. -/
theorem queueStep_conserve {α : Type} {s t : QueueState α} (h : QueueStep s t) :
    t.popped ++ t.buf.items ++ t.pending = s.popped ++ s.buf.items ++ s.pending := by
  cases h with
  | push x rest b rb' popped hp =>
      simp only [rtrb.RingBuffer.push] at hp
      by_cases hlt : b.items.length < b.capacity
      · rw [if_pos hlt] at hp
        simp only [Except.ok.injEq] at hp
        subst hp
        simp
      · rw [if_neg hlt] at hp
        exact absurd hp (by simp)
  | pop pending b rb' x popped hp =>
      cases hb : b.items with
      | nil => simp [rtrb.RingBuffer.pop, hb] at hp
      | cons y ys =>
          simp only [rtrb.RingBuffer.pop, hb, Except.ok.injEq, Prod.mk.injEq] at hp
          obtain ⟨rfl, rfl⟩ := hp
          simp [hb]

/-- One queue step never changes the buffer's capacity. -/
theorem queueStep_capacity {α : Type} {s t : QueueState α} (h : QueueStep s t) :
    t.buf.capacity = s.buf.capacity := by
  cases h with
  | push x rest b rb' popped hp =>
      simp only [rtrb.RingBuffer.push] at hp
      by_cases hlt : b.items.length < b.capacity
      · rw [if_pos hlt] at hp
        simp only [Except.ok.injEq] at hp
        subst hp
        rfl
      · rw [if_neg hlt] at hp
        exact absurd hp (by simp)
  | pop pending b rb' x popped hp =>
      cases hb : b.items with
      | nil => simp [rtrb.RingBuffer.pop, hb] at hp
      | cons y ys =>
          simp only [rtrb.RingBuffer.pop, hb, Except.ok.injEq, Prod.mk.injEq] at hp
          obtain ⟨rfl, rfl⟩ := hp
          rfl

/-- One queue step preserves the occupancy bound: a successful insert
requires free space, a removal only shrinks the buffer. -/
theorem queueStep_bound {α : Type} {s t : QueueState α} (h : QueueStep s t)
    (hs : s.buf.items.length ≤ s.buf.capacity) :
    t.buf.items.length ≤ t.buf.capacity := by
  cases h with
  | push x rest b rb' popped hp =>
      simp only [rtrb.RingBuffer.push] at hp
      by_cases hlt : b.items.length < b.capacity
      · rw [if_pos hlt] at hp
        simp only [Except.ok.injEq] at hp
        subst hp
        simpa using hlt
      · rw [if_neg hlt] at hp
        exact absurd hp (by simp)
  | pop pending b rb' x popped hp =>
      cases hb : b.items with
      | nil => simp [rtrb.RingBuffer.pop, hb] at hp
      | cons y ys =>
          simp only [rtrb.RingBuffer.pop, hb, Except.ok.injEq, Prod.mk.injEq] at hp
          obtain ⟨rfl, rfl⟩ := hp
          simp only at hs ⊢
          rw [hb] at hs
          simp at hs
          omega

/-- Conservation along any reachable state: what was popped, what sits in
the buffer and what is still pending always concatenate to the pushed
sequence, in order. -/
theorem queueReach_conserve {α : Type} (C : Nat) (xs : List α) (s : QueueState α)
    (h : QueueReach C xs s) : s.popped ++ s.buf.items ++ s.pending = xs := by
  induction h with
  | refl => simp [DecoderInputQueue.new]
  | tail hab hbc ih => exact (queueStep_conserve hbc).trans ih

/-- Capacity and occupancy invariant along any reachable state. -/
theorem queueReach_inv {α : Type} (C : Nat) (xs : List α) (s : QueueState α)
    (h : QueueReach C xs s) :
    s.buf.capacity = C ∧ s.buf.items.length ≤ C := by
  induction h with
  | refl => simp [DecoderInputQueue.new]
  | tail hab hbc ih =>
      refine ⟨(queueStep_capacity hbc).trans ih.1, ?_⟩
      have hmid : _ := queueStep_bound hbc (le_of_le_of_eq ih.2 ih.1.symm)
      calc _ ≤ _ := hmid
        _ = C := (queueStep_capacity hbc).trans ih.1

/-- C1: for every capacity C ≥ 1 and every sequence of items pushed in
program order through `DecoderInputQueueProducer::push` and popped in
program order through `DecoderInputQueue::next`, under any interleaving of
the two threads the popped sequence together with the buffered and the
still-pending items is exactly the pushed sequence (nothing dropped,
duplicated or reordered), the popped sequence is always a prefix of the
pushed one (the k-th successful pop yields the k-th successfully pushed
item), and once all items are pushed and popped the popped sequence equals
the pushed sequence. -/
theorem fifo_push_pop_order {α : Type} (C : Nat) (xs : List α) (s : QueueState α)
    (_hC : 1 ≤ C) (h : QueueReach C xs s) :
    s.popped ++ s.buf.items ++ s.pending = xs ∧
    (∃ t, s.popped ++ t = xs) ∧
    (s.pending = [] → s.buf.items = [] → s.popped = xs) := by
  have hcons := queueReach_conserve C xs s h
  refine ⟨hcons, ⟨s.buf.items ++ s.pending, by rw [← List.append_assoc]; exact hcons⟩, ?_⟩
  intro hp hb
  simpa [hp, hb] using hcons

/-- C1 witness: capacity 1, items 10 then 20, pushes and pops interleaved;
after draining, the popped sequence is the pushed one. -/
theorem fifo_push_pop_order_witness :
    QueueReach 1 [10, 20] (⟨[], ⟨1, []⟩, [10, 20]⟩ : QueueState Nat) ∧
    (⟨[], ⟨1, []⟩, [10, 20]⟩ : QueueState Nat).popped = [10, 20] := by
  have h1 : QueueStep (⟨[10, 20], ⟨1, []⟩, []⟩ : QueueState Nat) ⟨[20], ⟨1, [10]⟩, []⟩ :=
    QueueStep.push 10 [20] ⟨1, []⟩ ⟨1, [10]⟩ [] rfl
  have h2 : QueueStep (⟨[20], ⟨1, [10]⟩, []⟩ : QueueState Nat) ⟨[20], ⟨1, []⟩, [10]⟩ :=
    QueueStep.pop [20] ⟨1, [10]⟩ ⟨1, []⟩ 10 [] rfl
  have h3 : QueueStep (⟨[20], ⟨1, []⟩, [10]⟩ : QueueState Nat) ⟨[], ⟨1, [20]⟩, [10]⟩ :=
    QueueStep.push 20 [] ⟨1, []⟩ ⟨1, [20]⟩ [10] rfl
  have h4 : QueueStep (⟨[], ⟨1, [20]⟩, [10]⟩ : QueueState Nat) ⟨[], ⟨1, []⟩, [10, 20]⟩ :=
    QueueStep.pop [] ⟨1, [20]⟩ ⟨1, []⟩ 20 [10] rfl
  have hreach : QueueReach 1 [10, 20] (⟨[], ⟨1, []⟩, [10, 20]⟩ : QueueState Nat) :=
    Relation.ReflTransGen.tail
      (Relation.ReflTransGen.tail
        (Relation.ReflTransGen.tail
          (Relation.ReflTransGen.tail Relation.ReflTransGen.refl h1) h2) h3) h4
  exact ⟨hreach,
    (fifo_push_pop_order 1 [10, 20] _ (by decide) hreach).2.2 rfl rfl⟩

/-- C8: starting from `DecoderInputQueue::new(C)` with positive C, every
state reachable by any push/pop interleaving holds at most C items, and
the capacity is still C. -/
theorem capacity_never_exceeded {α : Type} (C : Nat) (xs : List α) (s : QueueState α)
    (_hC : 0 < C) (h : QueueReach C xs s) :
    s.buf.capacity = C ∧ s.buf.items.length ≤ C :=
  queueReach_inv C xs s h

/-- C8 witness: capacity 2, both items pushed and still enqueued. -/
theorem capacity_never_exceeded_witness :
    QueueReach 2 [3, 4] (⟨[], ⟨2, [3, 4]⟩, []⟩ : QueueState Nat) ∧
    (⟨[], ⟨2, [3, 4]⟩, []⟩ : QueueState Nat).buf.capacity = 2 ∧
    (⟨[], ⟨2, [3, 4]⟩, []⟩ : QueueState Nat).buf.items.length ≤ 2 := by
  have h1 : QueueStep (⟨[3, 4], ⟨2, []⟩, []⟩ : QueueState Nat) ⟨[4], ⟨2, [3]⟩, []⟩ :=
    QueueStep.push 3 [4] ⟨2, []⟩ ⟨2, [3]⟩ [] rfl
  have h2 : QueueStep (⟨[4], ⟨2, [3]⟩, []⟩ : QueueState Nat) ⟨[], ⟨2, [3, 4]⟩, []⟩ :=
    QueueStep.push 4 [] ⟨2, [3]⟩ ⟨2, [3, 4]⟩ [] rfl
  have hreach : QueueReach 2 [3, 4] (⟨[], ⟨2, [3, 4]⟩, []⟩ : QueueState Nat) :=
    Relation.ReflTransGen.tail
      (Relation.ReflTransGen.tail Relation.ReflTransGen.refl h1) h2
  exact ⟨hreach, capacity_never_exceeded 2 [3, 4] _ (by decide) hreach⟩

/-- C4: `DecoderInputQueueProducer::push` never discards an item and never
surfaces a full buffer to its caller: a failed non-blocking insert hands
the very same item back without consuming it and leaves the loop retrying
exactly that item, while an insert into a buffer with free space appends
exactly the original item, transferring ownership to the queue. -/
theorem push_retries_same_item {α : Type} (rb : rtrb.RingBuffer α) (x : α) :
    (rb.items.length = rb.capacity →
      rtrb.RingBuffer.push rb x = Except.error x ∧
      ∀ fuel, DecoderInputQueueProducer.push rb x (fuel + 1) =
        DecoderInputQueueProducer.push rb x fuel) ∧
    (rb.items.length < rb.capacity →
      ∀ fuel, DecoderInputQueueProducer.push rb x (fuel + 1) =
        some ⟨rb.capacity, rb.items ++ [x]⟩) := by
  constructor
  · intro hfull
    have hp : rtrb.RingBuffer.push rb x = Except.error x := by
      simp [rtrb.RingBuffer.push, hfull]
    refine ⟨hp, fun fuel => ?_⟩
    simp [DecoderInputQueueProducer.push, hp]
  · intro hlt fuel
    simp [DecoderInputQueueProducer.push, rtrb.RingBuffer.push, hlt]

/-- C4 witness: a full one-slot buffer returns item 7 itself; a buffer with
a free slot absorbs exactly item 7. -/
theorem push_retries_same_item_witness :
    rtrb.RingBuffer.push (⟨1, [5]⟩ : rtrb.RingBuffer Nat) 7 = Except.error 7 ∧
    DecoderInputQueueProducer.push (⟨2, [5]⟩ : rtrb.RingBuffer Nat) 7 1 =
      some ⟨2, [5, 7]⟩ :=
  ⟨((push_retries_same_item (⟨1, [5]⟩ : rtrb.RingBuffer Nat) 7).1 rfl).1,
   (push_retries_same_item (⟨2, [5]⟩ : rtrb.RingBuffer Nat) 7).2 (by decide) 0⟩

/-- C7: `DecoderInputQueue::next` never signals end of iteration: whenever
the retry loop returns, the returned iterator value is `Some` of exactly
one item; and on an empty buffer — which is all that dropping the producer
handle leaves behind — the loop is still retrying after any number of
attempts. -/
theorem next_never_terminates {α : Type} (rb : rtrb.RingBuffer α) :
    (∀ fuel res, DecoderInputQueue.next rb fuel = some res → ∃ x, res.1 = some x) ∧
    (rb.items = [] → ∀ fuel, DecoderInputQueue.next rb fuel = none) := by
  constructor
  · intro fuel
    induction fuel with
    | zero =>
        intro res h
        simp [DecoderInputQueue.next] at h
    | succ m ih =>
        intro res h
        cases hb : rb.items with
        | nil =>
            simp only [DecoderInputQueue.next, rtrb.RingBuffer.pop, hb] at h
            exact ih res h
        | cons y ys =>
            simp only [DecoderInputQueue.next, rtrb.RingBuffer.pop, hb,
              Option.some_inj] at h
            exact ⟨y, by rw [← h]⟩
  · intro hb fuel
    induction fuel with
    | zero => rfl
    | succ m ih =>
        simp only [DecoderInputQueue.next, rtrb.RingBuffer.pop, hb]
        exact ih

/-- C7 witness: a call that returns yields one item; on the empty buffer
the loop is still retrying after 5 attempts. -/
theorem next_never_terminates_witness :
    (∃ x, ((some 4, (⟨1, []⟩ : rtrb.RingBuffer Nat)) :
      Option Nat × rtrb.RingBuffer Nat).1 = some x) ∧
    DecoderInputQueue.next (⟨1, []⟩ : rtrb.RingBuffer Nat) 5 = none :=
  ⟨(next_never_terminates (⟨1, [4]⟩ : rtrb.RingBuffer Nat)).1 1 (some 4, ⟨1, []⟩) rfl,
   (next_never_terminates (⟨1, []⟩ : rtrb.RingBuffer Nat)).2 rfl 5⟩

/-- C9: an empty input buffer holds no NAL units, and `read_frames` on no
NAL units returns the empty sequence — a value, never an error. -/
theorem empty_input_empty_output {σ : Type} (D : AccessUnitCounter σ) :
    read_frames D [] = some [] := rfl

/-- C6: every frame of a successful `read_frames` call carries
`pts = dts =` its zero-based position in the output sequence. -/
theorem pts_dts_sequential {σ : Type} (D : AccessUnitCounter σ)
    (nalus : List Nalu) (l : List FrameResult)
    (h : read_frames D nalus = some l) (i : Nat) (hi : i < l.length) :
    ∃ d, l.get ⟨i, hi⟩ = Except.ok ⟨d, (i : Int), (i : Int)⟩ :=
  read_frames_pts D nalus l h i hi

/-- C6 witness: the second frame of a two-frame output has pts = dts = 1. -/
theorem pts_dts_sequential_witness :
    ∃ d, ([Except.ok ⟨[0, 0, 0, 1, 1], 0, 0⟩,
        Except.ok ⟨[0, 0, 0, 1, 1], 1, 1⟩] : List FrameResult).get
      ⟨1, by decide⟩ = Except.ok ⟨d, (1 : Int), (1 : Int)⟩ :=
  pts_dts_sequential testCounter [[1], [1]] _ rfl 1 (by decide)

/-- C10: on success the bytes of all output frames, concatenated in
emission order, are exactly the input NAL units in stream order, each
behind the 4-byte start code `00 00 00 01` — no byte lost, duplicated or
reordered across frame boundaries. -/
theorem demux_byte_conservation {σ : Type} (D : AccessUnitCounter σ)
    (nalus : List Nalu) (l : List FrameResult)
    (h : read_frames D nalus = some l) :
    (l.map frameData).flatten = (nalus.map withStartCode).flatten := by
  have hd := readFramesGo_data D nalus D.init [] [] l h
  simpa using hd

/-- C10 witness: the two-frame output of `[2], [1]` concatenates to the
re-prefixed input. -/
theorem demux_byte_conservation_witness :
    (([Except.ok ⟨[0, 0, 0, 1, 2], 0, 0⟩,
        Except.ok ⟨[0, 0, 0, 1, 1], 1, 1⟩] : List FrameResult).map frameData).flatten =
      (([[2], [1]] : List Nalu).map withStartCode).flatten :=
  demux_byte_conservation testCounter [[2], [1]] _ rfl

/-- C5: a non-empty NAL-unit sequence in which no unit after the first one
triggers an access-unit boundary yields exactly one frame holding every NAL
unit in order, each behind a fresh `00 00 00 01`, with pts = dts = 0. -/
theorem single_access_unit {σ : Type} (D : AccessUnitCounter σ) (n : Nalu)
    (rest : List Nalu) (fs : List Bool)
    (hf : triggerFlags D D.init (n :: rest) = some fs)
    (hno : ∀ b ∈ fs.drop 1, b = false) :
    read_frames D (n :: rest) =
      some [Except.ok ⟨((n :: rest).map withStartCode).flatten, 0, 0⟩] := by
  obtain ⟨s', fs', hcn, hrest, hfs⟩ := triggerFlags_cons D D.init n rest fs hf
  have hno' : ∀ b ∈ fs', b = false := by
    intro b hb
    apply hno
    rw [hfs]
    simpa using hb
  unfold read_frames
  simp only [readFramesGo, hcn]
  rw [if_neg (by simp)]
  rw [readFramesGo_noTrigger D rest s' [] ([] ++ [0, 0, 0, 1] ++ n) fs' hrest hno' (by simp)]
  simp [withStartCode]

/-- C5 witness: `[1]` starts the only access unit, `[2]` continues it; the
output is one frame containing both NAL units re-prefixed. -/
theorem single_access_unit_witness :
    triggerFlags testCounter testCounter.init [[1], [2]] = some [true, false] ∧
    read_frames testCounter [[1], [2]] =
      some [Except.ok ⟨(([[1], [2]] : List Nalu).map withStartCode).flatten, 0, 0⟩] :=
  ⟨rfl, single_access_unit testCounter [1] [[2]] [true, false] rfl (by decide)⟩

/-- C3 counterexample: for the NAL units `[2], [1]` exactly one unit (the
second) triggers a boundary, yet the call emits two frames, not one: the
non-triggering first unit is flushed as a frame of its own. -/
theorem k_access_units_cex :
    triggerFlags testCounter testCounter.init [[2], [1]] = some [false, true] ∧
    ([false, true] : List Bool).count true = 1 ∧
    read_frames testCounter [[2], [1]] =
      some [Except.ok ⟨[0, 0, 0, 1, 2], 0, 0⟩, Except.ok ⟨[0, 0, 0, 1, 1], 1, 1⟩] :=
  ⟨rfl, rfl, rfl⟩

/-- C3 (amended): when the input is non-empty, its FIRST NAL unit triggers
a boundary, and exactly K NAL units trigger boundaries in total, the call
yields exactly K frames with pts = dts = 0, ..., K-1 in emission order.
Without the first-unit condition the code emits K+1 frames. -/
theorem k_access_units {σ : Type} (D : AccessUnitCounter σ) (n : Nalu)
    (rest : List Nalu) (fs : List Bool) (K : Nat)
    (hf : triggerFlags D D.init (n :: rest) = some fs)
    (hK : fs.count true = K)
    (hhead : fs.head? = some true) :
    ∃ l, read_frames D (n :: rest) = some l ∧ l.length = K ∧
      ∀ i (hi : i < l.length), ∃ d, l.get ⟨i, hi⟩ =
        Except.ok ⟨d, (i : Int), (i : Int)⟩ := by
  obtain ⟨s', fs', hcn, hrest, hfs⟩ := triggerFlags_cons D D.init n rest fs hf
  obtain ⟨l, hgo, hlen⟩ :=
    readFramesGo_length D rest s' [] ([] ++ [0, 0, 0, 1] ++ n) fs' hrest (by simp)
  have hread : read_frames D (n :: rest) = some l := by
    unfold read_frames
    simp only [readFramesGo, hcn]
    rw [if_neg (by simp)]
    exact hgo
  refine ⟨l, hread, ?_, fun i hi => read_frames_pts D (n :: rest) l hread i hi⟩
  have hflag : decide (D.count s' ≠ D.count D.init) = true := by
    rw [hfs] at hhead
    simpa using hhead
  rw [hfs, hflag, List.count_cons_self] at hK
  rw [hlen]
  simp only [List.length_nil, Nat.zero_add]
  omega

/-- C3 witness: three NAL units with triggers on the first and third give
exactly two frames with pts = dts = 0 and 1. -/
theorem k_access_units_witness :
    triggerFlags testCounter testCounter.init [[1], [2], [1]] =
      some [true, false, true] ∧
    (∃ l, read_frames testCounter [[1], [2], [1]] = some l ∧ l.length = 2 ∧
      ∀ i (hi : i < l.length), ∃ d, l.get ⟨i, hi⟩ =
        Except.ok ⟨d, (i : Int), (i : Int)⟩) :=
  ⟨rfl, k_access_units testCounter [1] [[2], [1]] [true, false, true] 2 rfl rfl rfl⟩

/-- C2 counterexample: on the unclassifiable NAL unit `[9]` the call
returns no value at all — the `.unwrap()` panics — so in particular no
error value is returned to the caller. -/
theorem demux_error_cex : read_frames testCounter [[9]] = none := rfl

/-- C2 (amended): a NAL unit the counter cannot classify makes the whole
`read_frames` call abort through the `.unwrap()` panic: the call produces
no return value — hence zero output frames and no partial output — and the
failure reaches the caller as a panic, not as a returned error value. -/
theorem demux_unclassifiable_aborts {σ : Type} (D : AccessUnitCounter σ)
    (p : List Nalu) (n : Nalu) (rest : List Nalu) (s : σ)
    (hrun : runCounter D D.init p = some s)
    (hfail : D.count_nalu s n = none) :
    read_frames D (p ++ n :: rest) = none :=
  readFramesGo_panic D p D.init [] [] s n rest hrun hfail

/-- C2 witness: one good NAL unit, then the unclassifiable `[9]`, then
another unit: the whole call aborts with no output. -/
theorem demux_unclassifiable_aborts_witness :
    runCounter testCounter testCounter.init [[2]] = some 0 ∧
    testCounter.count_nalu 0 [9] = none ∧
    read_frames testCounter ([[2]] ++ [9] :: [[3]]) = none :=
  ⟨rfl, rfl, demux_unclassifiable_aborts testCounter [[2]] [9] [[3]] 0 rfl rfl⟩

end XcoderQueue
